import Mathlib

/-!
Verification of the variable-length decoding core declared in
`source/lib/vc5_decoder/vlc.h` (gpr repository).

The header supplies the data structures (`RLV`, `CODEBOOK`, `RUN`), the sign
code constants (`VLC_POSITIVE_CODE`, `VLC_NEGATIVE_CODE`, `VLC_SIGNCODE_SIZE`),
the initializer `RUN_INITIALIZER`, and declares the two decoding routines
`GetRlv` and `GetRun`.  The bodies of `GetRlv` and `GetRun` are not part of the
available sources, so they are modelled here from the specification of the
codeword matcher and run decoder.  A bitstream is embedded as a list of bits
(most significant bit of each codeword first) together with a cursor position.
-/

/-- Error kinds of the decoding core: `MalformedCodebook` (load-time length
mismatch), `BitstreamExhausted` (not enough bits for a codeword or sign bit),
`UnmatchedCodeword` (enough bits but no codebook entry matches). -/
inductive CODEC_ERROR where
  | MalformedCodebook
  | BitstreamExhausted
  | UnmatchedCodeword
deriving DecidableEq, Repr

/-- Codebook entry, from `vlc.h` lines 39-44: codeword size in bits, codeword
bits right justified, run length, run value (an unsigned magnitude stored in a
signed field). -/
structure RLV where
  size : Nat
  bits : Nat
  count : Nat
  value : Int
deriving DecidableEq, Repr

/-- Codebook, from `vlc.h` lines 63-67: a header holding the number of entries,
immediately followed by the `RLV` entries (embedded here as a list). -/
structure CODEBOOK where
  length : Nat
  entries : List RLV
deriving DecidableEq, Repr

/-- Result of the run length decoding routines, from `vlc.h` lines 84-87. -/
structure RUN where
  count : Nat
  value : Int
deriving DecidableEq, Repr

/-- Initializer for the run length data structure, from `vlc.h` line 90:
`#define RUN_INITIALIZER {0, 0}`. -/
def RUN_INITIALIZER : RUN := ⟨0, 0⟩

/-- Code that indicates a positive value (`vlc.h` line 25). -/
def VLC_POSITIVE_CODE : Nat := 0

/-- Code that indicates a negative value (`vlc.h` line 26). -/
def VLC_NEGATIVE_CODE : Nat := 1

/-- Size of the code for the sign suffix (`vlc.h` line 27). -/
def VLC_SIGNCODE_SIZE : Nat := 1

/-- Marker predicate from the codebook documentation in `vlc.h` lines 54-58:
special codewords that mark significant locations in the bitstream are
indicated by a run length of zero, and the value indicates the type of
marker. -/
def markerEntry (e : RLV) : Bool := e.count == 0

/-- Marker predicate as the specification document words it: value 0 together
with count 0.  Kept separate from `markerEntry` for comparison. -/
def specMarkerEntry (e : RLV) : Bool := e.count == 0 && e.value == 0

/-- The bit of a stream at index `i`, as 0 or 1; indices beyond the stream
read as 0 (such reads are always guarded by length checks). -/
def bitAt (s : List Bool) (i : Nat) : Nat :=
  if s.getD i false then 1 else 0

/-- Read `n` bits starting at `pos`, most significant bit first, as a number. -/
def readBits (s : List Bool) (pos : Nat) : Nat → Nat
  | 0 => 0
  | n + 1 => readBits s pos n * 2 + bitAt s (pos + n)

/-- The codeword of an entry: its `bits` field masked to its `size` low bits
(`vlc.h` line 41, bits are right justified; top bits are don't-care). -/
def codeword (e : RLV) : Nat := e.bits % 2 ^ e.size

/-- Entry `e` matches the stream at `pos`: at least `e.size` bits remain and
the next `e.size` bits equal the entry's codeword. -/
def entryMatches (s : List Bool) (pos : Nat) (e : RLV) : Bool :=
  decide (e.size ≤ s.length - pos) && decide (readBits s pos e.size = codeword e)

/-- Maximum codeword size over the codebook entries. -/
def maxCodeSize (cb : CODEBOOK) : Nat :=
  cb.entries.foldr (fun e m => max e.size m) 0

/-- Modelled from the spec: the codeword matcher scanning the codebook for the
entry whose codeword equals the upcoming bits (the body of the matcher is not
in the available sources, only its declaration in `vlc.h`). -/
def matchEntry (cb : CODEBOOK) (s : List Bool) (pos : Nat) : Option RLV :=
  cb.entries.find? (entryMatches s pos)

/-- Modelled from the spec: load-time validation of a codebook; the declared
entry count must equal the actual number of entries, otherwise the load fails
with `MalformedCodebook` (the loader is not in the available sources). -/
def loadCodebook (cb : CODEBOOK) : Except CODEC_ERROR CODEBOOK :=
  if cb.length = cb.entries.length then Except.ok cb
  else Except.error CODEC_ERROR.MalformedCodebook

/-- Modelled from the spec: `GetRlv`, declared in `vlc.h` line 96 but whose
body is not in the available sources.  On a match it consumes exactly the
matched entry's size and returns the entry's count and value; with no match it
consumes nothing and reports `UnmatchedCodeword` when every entry had enough
bits to be tested, `BitstreamExhausted` otherwise.  The result pairs the
decoding outcome with the new cursor position. -/
def GetRlv (cb : CODEBOOK) (s : List Bool) (pos : Nat) :
    Except CODEC_ERROR RUN × Nat :=
  match matchEntry cb s pos with
  | some e => (Except.ok ⟨e.count, e.value⟩, pos + e.size)
  | none =>
    if maxCodeSize cb ≤ s.length - pos then
      (Except.error CODEC_ERROR.UnmatchedCodeword, pos)
    else
      (Except.error CODEC_ERROR.BitstreamExhausted, pos)

/-- Modelled from the spec: `GetRun`, declared in `vlc.h` line 97 but whose
body is not in the available sources.  It invokes the matcher; a failure is
propagated unchanged.  A matched value of zero is returned as is; a non-zero
value is followed by one sign bit, `VLC_NEGATIVE_CODE` negating the magnitude.
If the stream ends before the sign bit the cursor is left at its original
position and `BitstreamExhausted` is reported. -/
def GetRun (cb : CODEBOOK) (s : List Bool) (pos : Nat) :
    Except CODEC_ERROR RUN × Nat :=
  match GetRlv cb s pos with
  | (Except.error e, _) => (Except.error e, pos)
  | (Except.ok run, pos1) =>
    if run.value = 0 then
      (Except.ok run, pos1)
    else if VLC_SIGNCODE_SIZE ≤ s.length - pos1 then
      if bitAt s pos1 = VLC_NEGATIVE_CODE then
        (Except.ok ⟨run.count, -run.value⟩, pos1 + VLC_SIGNCODE_SIZE)
      else
        (Except.ok ⟨run.count, run.value⟩, pos1 + VLC_SIGNCODE_SIZE)
    else
      (Except.error CODEC_ERROR.BitstreamExhausted, pos)

/-- Entry `a`'s codeword is a high-order bit prefix of entry `b`'s codeword. -/
def isPrefixOfEntry (a b : RLV) : Prop :=
  a.size ≤ b.size ∧ codeword b / 2 ^ (b.size - a.size) = codeword a

instance (a b : RLV) : Decidable (isPrefixOfEntry a b) := by
  unfold isPrefixOfEntry; infer_instance

/-- The prefix-free invariant of a codebook: no entry's codeword is a bit
prefix of a distinct entry's codeword (equal codewords at distinct positions
are mutual prefixes, so duplicates are excluded as well). -/
def prefixFree (cb : CODEBOOK) : Prop :=
  cb.entries.Pairwise (fun a b => ¬ isPrefixOfEntry a b ∧ ¬ isPrefixOfEntry b a)

/-- The toy two-entry codebook of the specification's concrete scenario. -/
def toyCodebook : CODEBOOK :=
  ⟨2, [⟨1, 0, 1, 0⟩, ⟨2, 3, 1, 5⟩]⟩

/-- A one-entry codebook whose single codeword is a marker entry. -/
def markerCodebook : CODEBOOK :=
  ⟨1, [⟨1, 0, 0, 0⟩]⟩

/-- The `size`-bit codeword of an entry as a bit list, most significant
bit first. -/
def natBits (n : Nat) : Nat → List Bool
  | 0 => []
  | k + 1 => natBits (n / 2) k ++ [decide (n % 2 = 1)]

def codewordBits (e : RLV) : List Bool := natBits e.bits e.size

instance (cb : CODEBOOK) : Decidable (prefixFree cb) := by
  unfold prefixFree; infer_instance

lemma bitAt_le (s : List Bool) (i : Nat) : bitAt s i ≤ 1 := by
  unfold bitAt; split <;> omega

lemma readBits_lt (s : List Bool) (pos n : Nat) : readBits s pos n < 2 ^ n := by
  induction n with
  | zero => simp [readBits]
  | succ n ih =>
    have hb := bitAt_le s (pos + n)
    have hp : 2 ^ (n + 1) = 2 ^ n * 2 := by rw [pow_succ]
    simp only [readBits]
    omega

lemma readBits_add (s : List Bool) (pos m k : Nat) :
    readBits s pos (m + k) = readBits s pos m * 2 ^ k + readBits s (pos + m) k := by
  induction k with
  | zero => simp [readBits]
  | succ k ih =>
    have h1 : m + (k + 1) = (m + k) + 1 := rfl
    rw [h1]
    simp only [readBits, ih, Nat.add_assoc]
    ring

lemma readBits_div (s : List Bool) (pos m k : Nat) :
    readBits s pos (m + k) / 2 ^ k = readBits s pos m := by
  rw [readBits_add, Nat.mul_comm, Nat.mul_add_div (Nat.pos_pow_of_pos k (by omega)),
    Nat.div_eq_of_lt (readBits_lt s (pos + m) k), Nat.add_zero]

lemma prefix_of_both_match {s : List Bool} {pos : Nat} {a b : RLV}
    (ha : entryMatches s pos a = true) (hb : entryMatches s pos b = true)
    (hab : a.size ≤ b.size) : isPrefixOfEntry a b := by
  unfold entryMatches at ha hb
  simp only [Bool.and_eq_true, decide_eq_true_eq] at ha hb
  refine ⟨hab, ?_⟩
  have hdiv := readBits_div s pos a.size (b.size - a.size)
  have hsz : a.size + (b.size - a.size) = b.size := by omega
  rw [hsz] at hdiv
  rw [← hb.2, hdiv, ha.2]

lemma uniqueMatch {cb : CODEBOOK} {s : List Bool} {pos : Nat} {a b : RLV}
    (hpf : prefixFree cb) (hma : a ∈ cb.entries) (hmb : b ∈ cb.entries)
    (ha : entryMatches s pos a = true) (hb : entryMatches s pos b = true) : a = b := by
  by_contra hne
  have hsym : Symmetric (fun a b : RLV => ¬ isPrefixOfEntry a b ∧ ¬ isPrefixOfEntry b a) :=
    fun x y h => ⟨h.2, h.1⟩
  have hR := (List.Pairwise.forall hsym hpf) hma hmb hne
  rcases Nat.le_total a.size b.size with hle | hle
  · exact hR.1 (prefix_of_both_match ha hb hle)
  · exact hR.2 (prefix_of_both_match hb ha hle)

lemma matchEntry_eq_some {cb : CODEBOOK} {s : List Bool} {pos : Nat} {e : RLV}
    (hpf : prefixFree cb) (he : e ∈ cb.entries) (hm : entryMatches s pos e = true) :
    matchEntry cb s pos = some e := by
  have hsome : (cb.entries.find? (entryMatches s pos)).isSome = true :=
    List.find?_isSome.mpr ⟨e, he, hm⟩
  rcases Option.isSome_iff_exists.mp hsome with ⟨x, hx⟩
  have hxm := List.find?_some hx
  have hxe := List.mem_of_find?_eq_some hx
  have : x = e := uniqueMatch hpf hxe he hxm hm
  rw [matchEntry, hx, this]

lemma length_natBits (n k : Nat) : (natBits n k).length = k := by
  induction k generalizing n with
  | zero => rfl
  | succ k ih => simp [natBits, ih]

lemma getD_append_length (l : List Bool) (b : Bool) (rest : List Bool) :
    (l ++ b :: rest).getD l.length false = b := by
  induction l with
  | nil => rfl
  | cons a t ih => simpa using ih

lemma bitAt_append_cons (l : List Bool) (b : Bool) (rest : List Bool) :
    bitAt (l ++ b :: rest) l.length = if b then 1 else 0 := by
  unfold bitAt; rw [getD_append_length]

lemma readBits_natBits (k n : Nat) (rest : List Bool) :
    readBits (natBits n k ++ rest) 0 k = n % 2 ^ k := by
  induction k generalizing n rest with
  | zero => simp [readBits, Nat.mod_one]
  | succ k ih =>
    have hassoc : natBits n (k + 1) ++ rest =
        natBits (n / 2) k ++ (decide (n % 2 = 1) :: rest) := by
      simp [natBits]
    have hbit : bitAt (natBits (n / 2) k ++ (decide (n % 2 = 1) :: rest)) k = n % 2 := by
      have h := bitAt_append_cons (natBits (n / 2) k) (decide (n % 2 = 1)) rest
      rw [length_natBits] at h
      rw [h]
      rcases Nat.mod_two_eq_zero_or_one n with h2 | h2 <;> simp [h2]
    simp only [readBits, hassoc, Nat.zero_add, ih, hbit]
    rw [pow_succ', Nat.mod_mul]
    omega

lemma GetRlv_of_match {cb : CODEBOOK} {s : List Bool} {pos : Nat} {e : RLV}
    (h : matchEntry cb s pos = some e) :
    GetRlv cb s pos = (Except.ok ⟨e.count, e.value⟩, pos + e.size) := by
  unfold GetRlv; rw [h]

lemma GetRun_of_match {cb : CODEBOOK} {s : List Bool} {pos : Nat} {e : RLV}
    (h : matchEntry cb s pos = some e) :
    (e.value = 0 → GetRun cb s pos = (Except.ok ⟨e.count, e.value⟩, pos + e.size)) ∧
    (e.value ≠ 0 → 1 ≤ s.length - (pos + e.size) →
      GetRun cb s pos =
        (Except.ok ⟨e.count, if bitAt s (pos + e.size) = 1 then -e.value else e.value⟩,
         pos + e.size + 1)) ∧
    (e.value ≠ 0 → s.length - (pos + e.size) = 0 →
      GetRun cb s pos = (Except.error CODEC_ERROR.BitstreamExhausted, pos)) := by
  refine ⟨?_, ?_, ?_⟩
  · intro hv
    unfold GetRun
    rw [GetRlv_of_match h]
    simp [hv]
  · intro hv hsz
    unfold GetRun
    rw [GetRlv_of_match h]
    simp only [hv, if_false, VLC_SIGNCODE_SIZE, VLC_NEGATIVE_CODE, hsz, if_true]
    split <;> rename_i hbit <;> simp [hbit]
  · intro hv hsz
    unfold GetRun
    rw [GetRlv_of_match h]
    have hlt : ¬ (VLC_SIGNCODE_SIZE ≤ s.length - (pos + e.size)) := by
      rw [hsz]; simp [VLC_SIGNCODE_SIZE]
    simp [hv, hlt]

lemma length_codewordBits (e : RLV) : (codewordBits e).length = e.size :=
  length_natBits e.bits e.size

lemma entryMatches_codewordBits (e : RLV) (rest : List Bool) :
    entryMatches (codewordBits e ++ rest) 0 e = true := by
  unfold entryMatches
  simp only [Bool.and_eq_true, decide_eq_true_eq]
  constructor
  · rw [List.length_append, length_codewordBits]
    omega
  · exact readBits_natBits e.size e.bits rest

lemma matchEntry_codewordBits {cb : CODEBOOK} {e : RLV}
    (hpf : prefixFree cb) (he : e ∈ cb.entries) (rest : List Bool) :
    matchEntry cb (codewordBits e ++ rest) 0 = some e :=
  matchEntry_eq_some hpf he (entryMatches_codewordBits e rest)

lemma getD_drop (s : List Bool) (pos i : Nat) :
    (s.drop pos).getD i false = s.getD (pos + i) false := by
  induction pos generalizing s with
  | zero => simp
  | succ pos ih =>
    cases s with
    | nil => simp
    | cons a t =>
      have h1 : pos + 1 + i = (pos + i) + 1 := by omega
      rw [h1, List.drop_succ_cons, List.getD_cons_succ]
      exact ih t

lemma bitAt_drop (s : List Bool) (pos i : Nat) :
    bitAt (s.drop pos) i = bitAt s (pos + i) := by
  unfold bitAt; rw [getD_drop]

lemma readBits_drop (s : List Bool) (pos n : Nat) :
    readBits (s.drop pos) 0 n = readBits s pos n := by
  induction n with
  | zero => rfl
  | succ n ih =>
    simp only [readBits, ih, Nat.zero_add, bitAt_drop]

lemma entryMatches_drop (s : List Bool) (pos : Nat) :
    entryMatches (s.drop pos) 0 = entryMatches s pos := by
  funext e
  unfold entryMatches
  rw [readBits_drop, List.length_drop, Nat.sub_zero]

lemma matchEntry_drop (cb : CODEBOOK) (s : List Bool) (pos : Nat) :
    matchEntry cb (s.drop pos) 0 = matchEntry cb s pos := by
  unfold matchEntry
  rw [entryMatches_drop]

lemma GetRlv_drop (cb : CODEBOOK) (s : List Bool) (pos : Nat) :
    GetRlv cb s pos = ((GetRlv cb (s.drop pos) 0).1, pos + (GetRlv cb (s.drop pos) 0).2) := by
  cases h : matchEntry cb s pos with
  | some e => simp [GetRlv, matchEntry_drop, h]
  | none =>
    simp only [GetRlv, matchEntry_drop, h]
    rw [List.length_drop, Nat.sub_zero]
    split <;> simp

lemma GetRun_drop (cb : CODEBOOK) (s : List Bool) (pos : Nat) :
    GetRun cb s pos = ((GetRun cb (s.drop pos) 0).1, pos + (GetRun cb (s.drop pos) 0).2) := by
  cases h : GetRlv cb (s.drop pos) 0 with
  | mk r p1 =>
    have hs : GetRlv cb s pos = (r, pos + p1) := by rw [GetRlv_drop, h]
    cases r with
    | error err => simp [GetRun, hs, h]
    | ok run =>
      simp only [GetRun, hs, h]
      rw [List.length_drop, ← Nat.sub_sub, bitAt_drop]
      split
      · simp
      · split
        · split <;> simp [Nat.add_assoc]
        · simp

lemma GetRlv_error_pos {cb : CODEBOOK} {s : List Bool} {pos : Nat} {err : CODEC_ERROR}
    (h : (GetRlv cb s pos).1 = Except.error err) : (GetRlv cb s pos).2 = pos := by
  cases hm : matchEntry cb s pos with
  | some e => rw [GetRlv_of_match hm] at h; simp at h
  | none =>
    simp only [GetRlv, hm]
    split <;> rfl

lemma GetRun_error_pos {cb : CODEBOOK} {s : List Bool} {pos : Nat} {err : CODEC_ERROR}
    (h : (GetRun cb s pos).1 = Except.error err) : (GetRun cb s pos).2 = pos := by
  cases hg : GetRlv cb s pos with
  | mk r p1 =>
    cases r with
    | error e => simp [GetRun, hg]
    | ok run =>
      simp only [GetRun, hg] at h ⊢
      by_cases h0 : run.value = 0
      · simp [h0] at h
      · by_cases h1 : VLC_SIGNCODE_SIZE ≤ s.length - p1
        · by_cases h2 : bitAt s p1 = VLC_NEGATIVE_CODE
          · simp [h0, h1, h2] at h
          · simp [h0, h1, h2] at h
        · simp [h0, h1]

/-- Claim C1: for every codebook and bitstream, when the matched entry has
value 0, `GetRun` returns the entry's count with value 0 and consumes no bits
beyond the codeword; when the matched value is non-zero it consumes exactly one
additional sign bit, returning plus the entry's value on sign bit 0 and minus
the entry's value on sign bit 1, with the entry's count. -/
theorem getrun_sign_protocol (cb : CODEBOOK) (s : List Bool) (pos : Nat) (e : RLV)
    (h : matchEntry cb s pos = some e) :
    (e.value = 0 → GetRun cb s pos = (Except.ok ⟨e.count, 0⟩, pos + e.size)) ∧
    (e.value ≠ 0 → VLC_SIGNCODE_SIZE ≤ s.length - (pos + e.size) →
      GetRun cb s pos =
        (Except.ok ⟨e.count,
            if bitAt s (pos + e.size) = VLC_NEGATIVE_CODE then -e.value else e.value⟩,
          pos + e.size + VLC_SIGNCODE_SIZE)) := by
  constructor
  · intro hv
    have h1 := (GetRun_of_match h).1 hv
    rw [h1, hv]
  · intro hv hsz
    exact (GetRun_of_match h).2.1 hv hsz

/-- Witness for claim C1 at the toy codebook on the stream 111. -/
theorem getrun_sign_protocol_witness :
    GetRun toyCodebook [true, true, true] 0 =
      (Except.ok ⟨1, if bitAt [true, true, true] (0 + 2) = VLC_NEGATIVE_CODE
          then -(5 : Int) else 5⟩,
        0 + 2 + VLC_SIGNCODE_SIZE) :=
  (getrun_sign_protocol toyCodebook [true, true, true] 0 ⟨2, 3, 1, 5⟩ rfl).2
    (by decide) (by decide)

/-- Claim C2: for an entry of a prefix-free codebook, decoding a bit sequence
that begins with exactly that entry's codeword (followed by arbitrary bits)
advances the cursor by exactly `entry.size` bits (`GetRlv` always, and `GetRun`
when the value is zero), and by `entry.size + 1` bits when a sign bit is
consumed for a non-zero value. -/
theorem bit_consumption_exact (cb : CODEBOOK) (e : RLV)
    (hpf : prefixFree cb) (he : e ∈ cb.entries) :
    (∀ rest, (GetRlv cb (codewordBits e ++ rest) 0).2 = e.size) ∧
    (e.value = 0 → ∀ rest, (GetRun cb (codewordBits e ++ rest) 0).2 = e.size) ∧
    (e.value ≠ 0 → ∀ b rest, (GetRun cb (codewordBits e ++ b :: rest) 0).2 = e.size + 1) := by
  refine ⟨?_, ?_, ?_⟩
  · intro rest
    rw [GetRlv_of_match (matchEntry_codewordBits hpf he rest)]
    simp
  · intro hv rest
    rw [(GetRun_of_match (matchEntry_codewordBits hpf he rest)).1 hv]
    simp
  · intro hv b rest
    have hsz : 1 ≤ (codewordBits e ++ b :: rest).length - (0 + e.size) := by
      rw [List.length_append, length_codewordBits, List.length_cons]
      omega
    rw [(GetRun_of_match (matchEntry_codewordBits hpf he (b :: rest))).2.1 hv hsz]
    simp

/-- Witness for claim C2: the toy codebook's magnitude-5 entry consumes 2 bits
in `GetRlv` and 3 bits in `GetRun`. -/
theorem bit_consumption_exact_witness :
    (GetRlv toyCodebook (codewordBits ⟨2, 3, 1, 5⟩ ++ [true]) 0).2 = 2 ∧
    (GetRun toyCodebook (codewordBits ⟨2, 3, 1, 5⟩ ++ true :: []) 0).2 = 2 + 1 :=
  ⟨(bit_consumption_exact toyCodebook ⟨2, 3, 1, 5⟩ (by decide) (by decide)).1 [true],
   (bit_consumption_exact toyCodebook ⟨2, 3, 1, 5⟩ (by decide) (by decide)).2.2
      (by decide) true []⟩

/-- Claim C3: whenever `GetRlv` or `GetRun` fails (with any error), the cursor
position after the failed call equals the position before it: no partial
consumption on any error path. -/
theorem no_partial_consumption (cb : CODEBOOK) (s : List Bool) (pos : Nat) :
    (∀ err, (GetRlv cb s pos).1 = Except.error err → (GetRlv cb s pos).2 = pos) ∧
    (∀ err, (GetRun cb s pos).1 = Except.error err → (GetRun cb s pos).2 = pos) :=
  ⟨fun _ h => GetRlv_error_pos h, fun _ h => GetRun_error_pos h⟩

/-- Witness for claim C3 at the toy codebook on the unmatched stream 10. -/
theorem no_partial_consumption_witness :
    (GetRlv toyCodebook [true, false] 0).2 = 0 ∧
    (GetRun toyCodebook [true, false] 0).2 = 0 :=
  ⟨(no_partial_consumption toyCodebook [true, false] 0).1
      CODEC_ERROR.UnmatchedCodeword rfl,
   (no_partial_consumption toyCodebook [true, false] 0).2
      CODEC_ERROR.UnmatchedCodeword rfl⟩

/-- Claim C4: the concrete scenario of the specification on the two-entry toy
codebook: stream 0 decodes to RUN(1, 0) consuming 1 bit, stream 110 to
RUN(1, 5) consuming 3 bits, stream 111 to RUN(1, -5) consuming 3 bits, and
stream 10 fails with `UnmatchedCodeword`. -/
theorem toy_codebook_scenario :
    GetRun toyCodebook [false] 0 = (Except.ok ⟨1, 0⟩, 1) ∧
    GetRun toyCodebook [true, true, false] 0 = (Except.ok ⟨1, 5⟩, 3) ∧
    GetRun toyCodebook [true, true, true] 0 = (Except.ok ⟨1, -5⟩, 3) ∧
    GetRun toyCodebook [true, false] 0 = (Except.error CODEC_ERROR.UnmatchedCodeword, 0) :=
  ⟨rfl, rfl, rfl, rfl⟩

/-- Claim C5 fails on the header's own documentation: a marker entry is
indicated by a run length (count) of zero alone, and the value field indicates
the type of the marker.  The entry with size 1, bits 0, count 0 and value 2 is
a marker entry whose value field is not 0, refuting "a codebook entry is a
special marker entry exactly when its value field is 0 and its count field
is 0". -/
theorem marker_field_counterexample :
    markerEntry ⟨1, 0, 0, 2⟩ = true ∧
    specMarkerEntry ⟨1, 0, 0, 2⟩ = false ∧
    ¬ ((⟨1, 0, 0, 2⟩ : RLV).value = 0 ∧ (⟨1, 0, 0, 2⟩ : RLV).count = 0) := by
  decide

/-- Claim C5 amended: a codebook entry is a special marker entry exactly when
its count field is 0 (the value field indicates the marker type); every
matched entry with count at least 1 carries its value verbatim as the decoded
magnitude of the run-of-zeros-then-value pair. -/
theorem marker_count_amended :
    (∀ e : RLV, markerEntry e = true ↔ e.count = 0) ∧
    (∀ (cb : CODEBOOK) (s : List Bool) (pos : Nat) (e : RLV) (r : RUN) (p : Nat),
      matchEntry cb s pos = some e → 1 ≤ e.count →
      GetRun cb s pos = (Except.ok r, p) →
      r.count = e.count ∧ r.value.natAbs = e.value.natAbs) := by
  constructor
  · intro e
    simp [markerEntry]
  · intro cb s pos e r p hm hc hg
    by_cases hv : e.value = 0
    · rw [(GetRun_of_match hm).1 hv] at hg
      have h1 : Except.ok (⟨e.count, e.value⟩ : RUN) = Except.ok r :=
        congrArg Prod.fst hg
      have h2 : (⟨e.count, e.value⟩ : RUN) = r := by injection h1
      rw [← h2]
      exact ⟨rfl, rfl⟩
    · by_cases h1 : 1 ≤ s.length - (pos + e.size)
      · rw [(GetRun_of_match hm).2.1 hv h1] at hg
        have h2 : Except.ok (⟨e.count,
            if bitAt s (pos + e.size) = 1 then -e.value else e.value⟩ : RUN) =
            Except.ok r := congrArg Prod.fst hg
        have h3 : (⟨e.count,
            if bitAt s (pos + e.size) = 1 then -e.value else e.value⟩ : RUN) = r := by
          injection h2
        rw [← h3]
        refine ⟨rfl, ?_⟩
        split <;> simp [Int.natAbs_neg]
      · have hz : s.length - (pos + e.size) = 0 := by omega
        rw [(GetRun_of_match hm).2.2 hv hz] at hg
        have h2 : Except.error CODEC_ERROR.BitstreamExhausted = Except.ok r :=
          congrArg Prod.fst hg
        exact absurd h2 (by simp)

/-- Witness for the amended claim C5 at the toy codebook on the stream 110. -/
theorem marker_count_amended_witness :
    (⟨1, 5⟩ : RUN).count = (⟨2, 3, 1, 5⟩ : RLV).count ∧
    (⟨1, 5⟩ : RUN).value.natAbs = (⟨2, 3, 1, 5⟩ : RLV).value.natAbs :=
  marker_count_amended.2 toyCodebook [true, true, false] 0 ⟨2, 3, 1, 5⟩ ⟨1, 5⟩ 3
    rfl (by decide) rfl

/-- Claim C6: the sign code is exactly one bit; bit 0 (`VLC_POSITIVE_CODE`)
keeps the magnitude positive and bit 1 (`VLC_NEGATIVE_CODE`) negates it.  For
every non-zero-value entry of a prefix-free codebook, feeding the entry's
codeword followed by the sign bit yields plus or minus the entry's value, the
magnitude taken verbatim from the entry. -/
theorem sign_code_roundtrip :
    VLC_SIGNCODE_SIZE = 1 ∧ VLC_POSITIVE_CODE = 0 ∧ VLC_NEGATIVE_CODE = 1 ∧
    ∀ (cb : CODEBOOK) (e : RLV) (b : Bool) (rest : List Bool),
      prefixFree cb → e ∈ cb.entries → e.value ≠ 0 →
      GetRun cb (codewordBits e ++ b :: rest) 0 =
        (Except.ok ⟨e.count, if b then -e.value else e.value⟩, e.size + 1) := by
  refine ⟨rfl, rfl, rfl, ?_⟩
  intro cb e b rest hpf he hv
  have hm := matchEntry_codewordBits hpf he (b :: rest)
  have hsz : 1 ≤ (codewordBits e ++ b :: rest).length - (0 + e.size) := by
    rw [List.length_append, length_codewordBits, List.length_cons]
    omega
  rw [(GetRun_of_match hm).2.1 hv hsz]
  have hbit : bitAt (codewordBits e ++ b :: rest) (0 + e.size) = if b then 1 else 0 := by
    have h := bitAt_append_cons (codewordBits e) b rest
    rw [length_codewordBits] at h
    rw [Nat.zero_add, h]
  rw [hbit]
  cases b <;> simp

/-- Witness for claim C6: codeword 11 followed by sign bit 1 decodes to -5. -/
theorem sign_code_roundtrip_witness :
    GetRun toyCodebook (codewordBits ⟨2, 3, 1, 5⟩ ++ true :: []) 0 =
      (Except.ok ⟨1, if true then -(5 : Int) else 5⟩, 2 + 1) :=
  sign_code_roundtrip.2.2.2 toyCodebook ⟨2, 3, 1, 5⟩ true [] (by decide)
    (by decide) (by decide)

/-- Claim C7: every call to `GetRlv` or `GetRun` yields either a successful
result or exactly one of the three explicit error kinds, and `GetRun`
propagates a matcher failure to its caller unchanged. -/
theorem error_kind_exhaustive_propagation (cb : CODEBOOK) (s : List Bool) (pos : Nat) :
    ((∃ r, (GetRlv cb s pos).1 = Except.ok r) ∨
      (GetRlv cb s pos).1 = Except.error CODEC_ERROR.MalformedCodebook ∨
      (GetRlv cb s pos).1 = Except.error CODEC_ERROR.BitstreamExhausted ∨
      (GetRlv cb s pos).1 = Except.error CODEC_ERROR.UnmatchedCodeword) ∧
    ((∃ r, (GetRun cb s pos).1 = Except.ok r) ∨
      (GetRun cb s pos).1 = Except.error CODEC_ERROR.MalformedCodebook ∨
      (GetRun cb s pos).1 = Except.error CODEC_ERROR.BitstreamExhausted ∨
      (GetRun cb s pos).1 = Except.error CODEC_ERROR.UnmatchedCodeword) ∧
    (∀ err, (GetRlv cb s pos).1 = Except.error err →
      (GetRun cb s pos).1 = Except.error err) := by
  refine ⟨?_, ?_, ?_⟩
  · cases h : (GetRlv cb s pos).1 with
    | ok r => exact Or.inl ⟨r, rfl⟩
    | error e => cases e <;> simp
  · cases h : (GetRun cb s pos).1 with
    | ok r => exact Or.inl ⟨r, rfl⟩
    | error e => cases e <;> simp
  · intro err h
    cases hg : GetRlv cb s pos with
    | mk r p1 =>
      rw [hg] at h
      cases r with
      | ok run => simp at h
      | error e =>
        have he : e = err := by injection h
        simp [GetRun, hg, he]

/-- Witness for claim C7: the matcher failure on stream 10 is propagated by
`GetRun` unchanged. -/
theorem error_kind_exhaustive_propagation_witness :
    (GetRun toyCodebook [true, false] 0).1 = Except.error CODEC_ERROR.UnmatchedCodeword :=
  (error_kind_exhaustive_propagation toyCodebook [true, false] 0).2.2
    CODEC_ERROR.UnmatchedCodeword rfl

/-- Claim C8: in a prefix-free codebook no entry's codeword is a high-order
prefix of a distinct entry's codeword, so at most one entry can match at any
bit position: two matching entries are equal. -/
theorem at_most_one_match (cb : CODEBOOK) (s : List Bool) (pos : Nat) (a b : RLV)
    (hpf : prefixFree cb) (ha : a ∈ cb.entries) (hb : b ∈ cb.entries)
    (hma : entryMatches s pos a = true) (hmb : entryMatches s pos b = true) :
    a = b :=
  uniqueMatch hpf ha hb hma hmb

/-- Witness for claim C8 at the toy codebook on the stream 0. -/
theorem at_most_one_match_witness : (⟨1, 0, 1, 0⟩ : RLV) = ⟨1, 0, 1, 0⟩ :=
  at_most_one_match toyCodebook [false] 0 ⟨1, 0, 1, 0⟩ ⟨1, 0, 1, 0⟩
    (by decide) (by decide) (by decide) (by decide) (by decide)

/-- Claim C9: `GetRun` is deterministic: for a fixed codebook, two calls whose
cursors see the same remaining bit sequence produce the same decoding result
and consume the same number of bits. -/
theorem getrun_deterministic (cb : CODEBOOK) (s1 : List Bool) (p1 : Nat)
    (s2 : List Bool) (p2 : Nat) (h : s1.drop p1 = s2.drop p2) :
    (GetRun cb s1 p1).1 = (GetRun cb s2 p2).1 ∧
    (GetRun cb s1 p1).2 - p1 = (GetRun cb s2 p2).2 - p2 := by
  rw [GetRun_drop cb s1 p1, GetRun_drop cb s2 p2, h]
  exact ⟨rfl, by simp⟩

/-- Witness for claim C9: the same remaining bits 110 at positions 0 and 1 of
two different streams decode identically. -/
theorem getrun_deterministic_witness :
    (GetRun toyCodebook [true, true, false] 0).1 =
      (GetRun toyCodebook [false, true, true, false] 1).1 ∧
    (GetRun toyCodebook [true, true, false] 0).2 - 0 =
      (GetRun toyCodebook [false, true, true, false] 1).2 - 1 :=
  getrun_deterministic toyCodebook [true, true, false] 0 [false, true, true, false] 1 rfl

/-- Claim C10: a RUN initialized with `RUN_INITIALIZER` has count 0 and value
0, exactly the field values `GetRun` produces for a decoded (0, 0) marker
entry, so the two are indistinguishable by field inspection. -/
theorem run_initializer_indistinguishable :
    RUN_INITIALIZER.count = 0 ∧ RUN_INITIALIZER.value = 0 ∧
    ∀ (cb : CODEBOOK) (s : List Bool) (pos : Nat) (e : RLV),
      matchEntry cb s pos = some e → e.count = 0 → e.value = 0 →
      (GetRun cb s pos).1 = Except.ok RUN_INITIALIZER := by
  refine ⟨rfl, rfl, ?_⟩
  intro cb s pos e hm hc hv
  rw [(GetRun_of_match hm).1 hv]
  simp [RUN_INITIALIZER, hc, hv]

/-- Witness for claim C10: decoding the marker codebook's (0, 0) entry yields
exactly `RUN_INITIALIZER`. -/
theorem run_initializer_indistinguishable_witness :
    (GetRun markerCodebook [false] 0).1 = Except.ok RUN_INITIALIZER :=
  run_initializer_indistinguishable.2.2 markerCodebook [false] 0 ⟨1, 0, 0, 0⟩
    rfl rfl rfl
